import Mathlib

/-!
Shallow embedding of the emotion-detection core of the HatchWayss repository
(EmotionDetectionService): the deterministic fallback classifier, the live-path
record builder, the bounded FIFO result cache, the retry-with-backoff executor,
and the pure session aggregation functions.  JavaScript numbers are modelled as
rationals; JavaScript falsiness-based defaulting (the `x || d` idiom) is
modelled explicitly.  Each claim about the specification is stated and settled
as a theorem at the end of the file.
-/

set_option maxRecDepth 100000

/-! ## Basic enumerated types (from the TypeScript type declarations) -/

inductive EmotionLabel
  | happy | neutral | nervous | confident | stressed
  | excited | disappointed | frustrated | calm | uncertain
  deriving DecidableEq, Repr

inductive Intensity
  | low | medium | high
  deriving DecidableEq, Repr

inductive SpeakingPace
  | slow | normal | fast
  deriving DecidableEq, Repr

structure EmotionMetrics where
  stress_level : ℚ
  energy_level : ℚ
  speaking_pace : SpeakingPace
  voice_stability : ℚ
  deriving DecidableEq, Repr

structure EmotionData where
  emotion : Option EmotionLabel
  confidence : ℚ
  timestamp : ℚ
  secondsFromStart : ℚ
  duration : ℚ
  intensity : Intensity
  additionalMetrics : EmotionMetrics
  deriving DecidableEq, Repr

/-! ## String helpers modelling the JavaScript string operations used -/

/-- Model of JavaScript toLowerCase, applied character-wise. -/
def lowerStr (s : String) : String := String.mk (s.data.map Char.toLower)

/-- Model of JavaScript trim: strip whitespace at both ends. -/
def trimStr (s : String) : String :=
  String.mk (((s.data.dropWhile Char.isWhitespace).reverse.dropWhile
    Char.isWhitespace).reverse)

/-- Boolean test that the first list is an initial segment of the second. -/
def leadsWith : List Char → List Char → Bool
  | [], _ => true
  | _ :: _, [] => false
  | a :: as, b :: bs => a == b && leadsWith as bs

/-- Fuel-driven scanner underlying countOccs; the fuel dominates the length of
the remaining text, so it never runs out when started at the text's length. -/
def countOccsGo (needle : List Char) : Nat → List Char → Nat
  | 0, _ => 0
  | _, [] => 0
  | fuel + 1, c :: rest =>
    if leadsWith needle (c :: rest) && !needle.isEmpty then
      1 + countOccsGo needle fuel (rest.drop (needle.length - 1))
    else
      countOccsGo needle fuel rest

/-- Number of non-overlapping occurrences of a literal pattern in a text,
scanning left to right and skipping past each match, exactly as
match(new RegExp(keyword, g)).length counts matches of a literal keyword. -/
def countOccs (needle hay : List Char) : Nat :=
  countOccsGo needle hay.length hay

/-- ASCII uppercase test, the character class A-Z of the regex. -/
def isUpperAZ (c : Char) : Bool := 'A' ≤ c && c ≤ 'Z'

/-- Test for two consecutive ASCII uppercase letters. -/
def hasTwoConsecUpper : List Char → Bool
  | a :: b :: rest => (isUpperAZ a && isUpperAZ b) || hasTwoConsecUpper (b :: rest)
  | _ => false

/-- Model of text.split(single space).length: one more than the number of
space characters, counting empty segments like the JavaScript split does. -/
def wordCount (text : String) : Nat :=
  (text.data.filter (fun c => c == ' ')).length + 1

/-! ## FallbackClassifier (fallbackTextAnalysis in the source) -/

/-- The fixed keyword table, in the iteration order of the object literal. -/
def emotionPatterns : List (EmotionLabel × List String) :=
  [(.confident, ["sure", "definitely", "absolutely", "i know", "certain", "experience"]),
   (.nervous, ["um", "uh", "i think", "maybe", "not sure", "i guess"]),
   (.excited, ["great", "amazing", "love", "excited", "fantastic", "wonderful"]),
   (.stressed, ["difficult", "hard", "struggle", "challenging", "overwhelming"]),
   (.frustrated, ["but", "however", "unfortunately", "problem", "issue"]),
   (.calm, ["okay", "fine", "alright", "steady", "stable"]),
   (.happy, ["good", "well", "positive", "pleased", "satisfied"]),
   (.disappointed, ["not good", "unfortunately", "sadly", "failed", "disappointed"])]

/-- Sum of keyword occurrence counts for one category. -/
def keywordScore (lowerText : String) (keywords : List String) : Nat :=
  keywords.foldl (fun acc kw => acc + countOccs kw.data lowerText.data) 0

/-- Per-category scores of a text, in the fixed iteration order. -/
def categoryScores (text : String) : List (EmotionLabel × Nat) :=
  emotionPatterns.map (fun p => (p.1, keywordScore (lowerStr text) p.2))

/-- The running-maximum scan of the source: the accumulator is replaced only
when a strictly greater score is found, so ties keep the earlier entry. -/
def bestScan (init : α × Nat) (l : List (α × Nat)) : α × Nat :=
  l.foldl (fun best q => if best.2 < q.2 then q else best) init

/-- The deterministic rule-based classifier, translated from
fallbackTextAnalysis in the source. -/
def fallbackTextAnalysis (text : String) (timestamp speakingDuration : ℚ) :
    EmotionData :=
  let best := bestScan (EmotionLabel.neutral, 0) (categoryScores text)
  let detectedEmotion := best.1
  let maxScore := best.2
  let wc := wordCount text
  let confidence : ℚ := min (0.3 + ((maxScore : ℚ) / (wc : ℚ)) * 2) 0.85
  let hasCapitals := hasTwoConsecUpper text.data
  let hasExclamation := text.data.contains '!'
  let intensity : Intensity :=
    if hasCapitals || hasExclamation || decide (2 < maxScore) then .high
    else if decide (maxScore = 0) || decide (text.length < 20) then .low
    else .medium
  { emotion := some detectedEmotion
    confidence := confidence
    timestamp := timestamp
    secondsFromStart := timestamp / 1000
    duration := speakingDuration
    intensity := intensity
    additionalMetrics :=
      { stress_level :=
          if detectedEmotion = .nervous ∨ detectedEmotion = .stressed then 0.7 else 0.3
        energy_level :=
          if detectedEmotion = .excited ∨ detectedEmotion = .confident then 0.8 else 0.5
        speaking_pace := if 50 < wc then .fast else if wc < 20 then .slow else .normal
        voice_stability := confidence } }

/-! ## Live path: reply analysis, falsiness defaulting, record builder -/

/-- Fields of the parsed JSON reply of the live service; every field may be
absent.  Numeric fields are rationals, the enumerated fields use the same
types as the record.  A reply whose raw text contains no JSON object or whose
JSON does not parse never reaches this structure (that is a parse failure). -/
structure LiveAnalysis where
  emotion : Option EmotionLabel
  confidence : Option ℚ
  intensity : Option Intensity
  stress_level : Option ℚ
  energy_level : Option ℚ
  speaking_pace : Option SpeakingPace
  voice_stability : Option ℚ
  deriving DecidableEq, Repr

/-- JavaScript x or-else d on a possibly-absent number: an absent field and a
present zero both yield the default, any other number passes through. -/
def jsOr (x : Option ℚ) (d : ℚ) : ℚ :=
  match x with
  | none => d
  | some v => if v = 0 then d else v

/-- The record built on the live-success path: confidence is defaulted then
clamped into the unit interval; the metric floats are defaulted by falsiness
but never clamped (translated from the EmotionData construction after the
JSON extraction in analyzeTextEmotion). -/
def buildLiveRecord (analysis : LiveAnalysis) (timestamp speakingDuration : ℚ) :
    EmotionData :=
  { emotion := analysis.emotion
    confidence := min (max (jsOr analysis.confidence 0.5) 0) 1
    timestamp := timestamp
    secondsFromStart := timestamp / 1000
    duration := speakingDuration
    intensity := analysis.intensity.getD .medium
    additionalMetrics :=
      { stress_level := jsOr analysis.stress_level 0.5
        energy_level := jsOr analysis.energy_level 0.5
        speaking_pace := analysis.speaking_pace.getD .normal
        voice_stability := jsOr analysis.voice_stability 0.5 } }

/-! ## ResultCache -/

/-- Cache keys: in the source the key is the string
trimmed-lowercased-text ++ underscore ++ duration.  The duration renders
without an underscore, so that string determines and is determined by the
pair below; we model the key as the pair. -/
structure CacheKey where
  text : String
  duration : ℚ
  deriving DecidableEq, Repr

/-- Key construction from the raw inputs. -/
def mkCacheKey (text : String) (speakingDuration : ℚ) : CacheKey :=
  ⟨lowerStr (trimStr text), speakingDuration⟩

/-- The cached field subset: everything but timestamp and secondsFromStart. -/
structure CachedData where
  emotion : Option EmotionLabel
  confidence : ℚ
  duration : ℚ
  intensity : Intensity
  additionalMetrics : EmotionMetrics
  deriving DecidableEq, Repr

/-- The cache as an insertion-ordered association list, oldest entry first,
modelling a JavaScript Map. -/
abbrev EmotionCache := List (CacheKey × CachedData)

/-- Lookup, Map.get. -/
def cacheGet (c : EmotionCache) (k : CacheKey) : Option CachedData :=
  (c.find? (fun p => p.1 = k)).map (·.2)

/-- Map.set: updating an existing key keeps its position, a new key is
appended at the (newest) end. -/
def cacheSet (c : EmotionCache) (k : CacheKey) (v : CachedData) : EmotionCache :=
  if c.any (fun p => p.1 = k) then
    c.map (fun p => if p.1 = k then (k, v) else p)
  else
    c ++ [(k, v)]

/-- The post-insert size guard: when the size exceeds 100, the first key of
the iteration order (the oldest insertion) is deleted.  The keys-next-value
of an empty map would be falsy and skip the delete, hence the empty case. -/
def evictIfOver (c : EmotionCache) : EmotionCache :=
  if 100 < c.length then c.tail else c

/-- Field subset stored on a live success. -/
def toCached (r : EmotionData) : CachedData :=
  ⟨r.emotion, r.confidence, r.duration, r.intensity, r.additionalMetrics⟩

/-- The cache write of the live-success path: Map.set followed by the size
guard. -/
def cacheInsert (c : EmotionCache) (k : CacheKey) (v : CachedData) : EmotionCache :=
  evictIfOver (cacheSet c k v)

/-- Rebuilding a record from a cache hit: the spread of the cached fields with
the new timestamp and secondsFromStart. -/
def fromCached (cd : CachedData) (timestamp : ℚ) : EmotionData :=
  { emotion := cd.emotion
    confidence := cd.confidence
    timestamp := timestamp
    secondsFromStart := timestamp / 1000
    duration := cd.duration
    intensity := cd.intensity
    additionalMetrics := cd.additionalMetrics }

/-! ## Dispatcher (analyzeTextEmotion) -/

/-- Configuration read from the environment: the resolved api key string
(empty when unset, tested by falsiness) and the fallback-only flag. -/
structure Env where
  apiKey : String
  fallbackOnly : Bool
  deriving DecidableEq, Repr

/-- Abstraction of one full live attempt (rate-limited queue, retry executor,
JSON extraction): either a parsed reply, or one of the failure classes the
try-catch collapses into the fallback path.  parseFailure covers a raw reply
with no JSON object (the subscript of the null match throws) and JSON that
does not parse. -/
inductive LiveOutcome
  | success (a : LiveAnalysis)
  | throttledExhausted
  | authFailure
  | networkFailure
  | parseFailure
  deriving DecidableEq, Repr

/-- The failure classes, every constructor except success. -/
def LiveOutcome.isFailure : LiveOutcome → Bool
  | .success _ => false
  | _ => true

/-- The dispatcher's observable result: the returned record, the cache state
after the call, and whether a live call was issued. -/
structure DispatchResult where
  record : EmotionData
  cache : EmotionCache
  liveCalled : Bool
  deriving DecidableEq, Repr

/-- Translation of analyzeTextEmotion: fallback-mode check, cache lookup,
short-text check, then the live attempt whose outcome is a parameter; a
success is cached (with FIFO eviction) and returned, any failure is converted
into the fallback record for the same inputs. -/
def analyzeTextEmotion (env : Env) (cache : EmotionCache) (text : String)
    (timestamp speakingDuration : ℚ) (outcome : LiveOutcome) : DispatchResult :=
  if env.fallbackOnly = true ∨ env.apiKey = "" then
    ⟨fallbackTextAnalysis text timestamp speakingDuration, cache, false⟩
  else
    match cacheGet cache (mkCacheKey text speakingDuration) with
    | some cached => ⟨fromCached cached timestamp, cache, false⟩
    | none =>
      if (trimStr text).length < 10 then
        ⟨fallbackTextAnalysis text timestamp speakingDuration, cache, false⟩
      else
        match outcome with
        | .success a =>
          ⟨buildLiveRecord a timestamp speakingDuration,
            cacheInsert cache (mkCacheKey text speakingDuration)
              (toCached (buildLiveRecord a timestamp speakingDuration)), true⟩
        | _ =>
          ⟨fallbackTextAnalysis text timestamp speakingDuration, cache, true⟩

/-! ## RetryExecutor (retryWithBackoff) -/

/-- Outcome of one attempt of the wrapped live call; the flag of the error
constructor records whether the error message contained 429 or quota, the
condition the source tests to decide whether to retry. -/
inductive AttemptResult (α : Type)
  | ok (a : α)
  | err (throttled : Bool)
  deriving DecidableEq, Repr

/-- Final outcome of the retry loop. -/
inductive RetryOutcome (α : Type)
  | ok (a : α)
  | failed (throttled : Bool)
  deriving DecidableEq, Repr

/-- The attempt loop, structurally recursive on the remaining attempt budget.
Arguments of the match: the 1-based attempt number and the remaining fuel
(maxRetries + 1 - attempt).  Returns the outcome, the number of attempts
made, and the list of backoff delays slept, in order. -/
def retryGo (f : Nat → AttemptResult α) (jitter : Nat → ℚ) (baseDelay : ℚ)
    (maxRetries : Nat) : Nat → Nat → RetryOutcome α × Nat × List ℚ
  | _, 0 => (.failed false, 0, [])
  | attempt, fuel + 1 =>
    match f attempt with
    | .ok a => (.ok a, 1, [])
    | .err throttled =>
      if attempt = maxRetries then (.failed throttled, 1, [])
      else if throttled then
        let d := baseDelay * 2 ^ (attempt - 1) + jitter attempt
        let rest := retryGo f jitter baseDelay maxRetries (attempt + 1) fuel
        (rest.1, rest.2.1 + 1, d :: rest.2.2)
      else (.failed throttled, 1, [])

/-- Translation of retryWithBackoff: up to maxRetries total attempts starting
at attempt 1; after a throttled failure that is not the final attempt it
sleeps baseDelay times 2 to the (attempt - 1) plus a jitter and retries; any
other failure, or the final attempt's failure, is thrown (reported upward).
The function f gives the result of each attempt, jitter the sampled value of
Math.random() times 1000 before each retry. -/
def retryWithBackoff (f : Nat → AttemptResult α) (jitter : Nat → ℚ)
    (maxRetries : Nat) (baseDelay : ℚ) : RetryOutcome α × Nat × List ℚ :=
  retryGo f jitter baseDelay maxRetries 1 maxRetries

/-! ## SessionAggregator (calculateEmotionSummary, calculateEmotionalTrend) -/

structure SessionSummary where
  averageConfidence : ℚ
  mostFrequentEmotion : Option EmotionLabel
  emotionalStability : ℚ
  stressIndicators : List String
  deriving DecidableEq, Repr

/-- One step of the counting reduce: an existing key is incremented in place,
a new key is appended, preserving first-occurrence ordering, exactly like
property insertion on a JavaScript object with string keys. -/
def bumpCount [DecidableEq α] (acc : List (α × Nat)) (l : α) : List (α × Nat) :=
  if acc.any (fun p => p.1 = l) then
    acc.map (fun p => if p.1 = l then (p.1, p.2 + 1) else p)
  else acc ++ [(l, 1)]

/-- The occurrence-count table of a list, keys in first-occurrence order. -/
def countTable [DecidableEq α] (ls : List α) : List (α × Nat) :=
  ls.foldl bumpCount []

/-- The reduce building emotionCounts in the source, folded over the records'
emotion fields. -/
def emotionCounts (es : List EmotionData) : List (Option EmotionLabel × Nat) :=
  countTable (es.map (·.emotion))

/-- Size of the Set of a list's elements. -/
def distinctCount [DecidableEq α] (ls : List α) : Nat :=
  (ls.foldl (fun acc l => if acc.any (fun x => x = l) then acc else acc ++ [l]) []).length

/-- Translation of calculateEmotionSummary.  The source takes the head of a
stable descending sort of the count entries; its head is the first entry (in
first-occurrence order) holding the maximal count, which is what the
strict-greater bestScan computes. -/
def calculateEmotionSummary (es : List EmotionData) : SessionSummary :=
  if es.isEmpty then ⟨0, some .neutral, 0, []⟩
  else
    let averageConfidence := (es.map (·.confidence)).sum / (es.length : ℚ)
    let mostFrequentEmotion : Option EmotionLabel :=
      match emotionCounts es with
      | [] => some .neutral
      | p :: ps => (bestScan p ps).1
    let emotionalStability : ℚ :=
      max 0 (1 - (distinctCount (es.map (·.emotion)) : ℚ) / (es.length : ℚ))
    let stressedCount :=
      (es.filter (fun e =>
        decide (e.emotion = some .stressed) || decide (e.emotion = some .nervous))).length
    let averageStress :=
      (es.map (fun e => e.additionalMetrics.stress_level)).sum / (es.length : ℚ)
    let i1 : List String :=
      if (stressedCount : ℚ) > (es.length : ℚ) * 0.3 then
        ["High frequency of stressed/nervous responses"] else []
    let i2 : List String :=
      if averageStress > 0.6 then ["Elevated stress levels detected"] else []
    let i3 : List String :=
      if emotionalStability < 0.5 then ["High emotional volatility"] else []
    ⟨averageConfidence, mostFrequentEmotion, emotionalStability, i1 ++ i2 ++ i3⟩

inductive Trend
  | improving | declining | stable
  deriving DecidableEq, Repr

/-- The positive label set of calculateEmotionalTrend. -/
def positiveEmotions : List (Option EmotionLabel) :=
  [some .happy, some .confident, some .excited, some .calm]

/-- Share of records of a half whose label lies in the positive set. -/
def halfPositive (half : List EmotionData) : ℚ :=
  ((half.filter (fun e => decide (e.emotion ∈ positiveEmotions))).length : ℚ) /
    (half.length : ℚ)

/-- Translation of calculateEmotionalTrend: stable under 3 records, else the
positive-label ratio of the second half (which gets the extra record of an
odd split) minus that of the first half, thresholded at a tenth. -/
def calculateEmotionalTrend (es : List EmotionData) : Trend :=
  if es.length < 3 then .stable
  else
    let firstHalf := es.take (es.length / 2)
    let secondHalf := es.drop (es.length / 2)
    let firstHalfPositive : ℚ := halfPositive firstHalf
    let secondHalfPositive : ℚ := halfPositive secondHalf
    let improvement := secondHalfPositive - firstHalfPositive
    if improvement > 0.1 then .improving
    else if improvement < -0.1 then .declining
    else .stable

/-! ## Generic lemmas about the running-maximum scan and fold-max -/

theorem le_foldl_max_init (l : List Nat) (a : Nat) : a ≤ l.foldl max a := by
  induction l generalizing a with
  | nil => exact le_refl a
  | cons x t ih => exact le_trans (le_max_left a x) (ih (max a x))

theorem le_foldl_max_mem {l : List Nat} {b : Nat} (hb : b ∈ l) (a : Nat) :
    b ≤ l.foldl max a := by
  induction l generalizing a with
  | nil => cases hb
  | cons x t ih =>
    rcases List.mem_cons.mp hb with h | h
    · subst h
      exact le_trans (le_max_right a b) (le_foldl_max_init t (max a b))
    · exact ih h (max a x)

theorem foldl_max_le_of {l : List Nat} {a m : Nat} (ha : a ≤ m)
    (h : ∀ x ∈ l, x ≤ m) : l.foldl max a ≤ m := by
  induction l generalizing a with
  | nil => exact ha
  | cons x t ih =>
    exact ih (max_le ha (h x (by simp))) (fun y hy => h y (by simp [hy]))

theorem foldl_max_eq {l : List Nat} {m : Nat} (hm : m ∈ l)
    (h : ∀ x ∈ l, x ≤ m) : l.foldl max 0 = m :=
  le_antisymm (foldl_max_le_of (Nat.zero_le m) h) (le_foldl_max_mem hm 0)

/-- Characterization of the strict-greater running-maximum scan: either no
element beats the initial value and the scan returns it, or the scan returns
the first element whose value equals the overall maximum; everything before
it is strictly smaller, everything after it no larger. -/
theorem bestScan_spec (l : List (α × Nat)) (init : α × Nat) :
    ((∀ q ∈ l, q.2 ≤ init.2) ∧ bestScan init l = init) ∨
    (∃ l₁ r l₂, l = l₁ ++ r :: l₂ ∧ bestScan init l = r ∧ init.2 < r.2 ∧
      (∀ q ∈ l₁, q.2 < r.2) ∧ (∀ q ∈ l₂, q.2 ≤ r.2)) := by
  induction l generalizing init with
  | nil => exact Or.inl ⟨by simp, rfl⟩
  | cons a t ih =>
    have hstep : ∀ i : α × Nat,
        bestScan i (a :: t) = bestScan (if i.2 < a.2 then a else i) t := by
      intro i
      simp [bestScan]
    by_cases ha : init.2 < a.2
    · rcases ih a with ⟨hall, heq⟩ | ⟨l₁, r, l₂, hsplit, heq, hinit, hbef, haft⟩
      · refine Or.inr ⟨[], a, t, by simp, ?_, ha, by simp, hall⟩
        rw [hstep init, if_pos ha]
        exact heq
      · refine Or.inr ⟨a :: l₁, r, l₂, by simp [hsplit], ?_, lt_trans ha hinit, ?_, haft⟩
        · rw [hstep init, if_pos ha]
          exact heq
        · intro q hq
          rcases List.mem_cons.mp hq with h | h
          · subst h; exact hinit
          · exact hbef q h
    · rcases ih init with ⟨hall, heq⟩ | ⟨l₁, r, l₂, hsplit, heq, hinit, hbef, haft⟩
      · refine Or.inl ⟨?_, ?_⟩
        · intro q hq
          rcases List.mem_cons.mp hq with h | h
          · subst h; exact le_of_not_lt ha
          · exact hall q h
        · rw [hstep init, if_neg ha]
          exact heq
      · refine Or.inr ⟨a :: l₁, r, l₂, by simp [hsplit], ?_, hinit, ?_, haft⟩
        · rw [hstep init, if_neg ha]
          exact heq
        · intro q hq
          rcases List.mem_cons.mp hq with h | h
          · subst h; exact lt_of_le_of_lt (le_of_not_lt ha) hinit
          · exact hbef q h

theorem find?_first {p : α → Bool} {l₁ l₂ : List α} {r : α}
    (h₁ : ∀ q ∈ l₁, p q = false) (hr : p r = true) :
    (l₁ ++ r :: l₂).find? p = some r := by
  induction l₁ with
  | nil => simp [List.find?_cons, hr]
  | cons a t ih =>
    have ha := h₁ a (by simp)
    simpa [List.find?_cons, ha] using ih (fun q hq => h₁ q (by simp [hq]))

/-! ## Specification-side definitions, written from the claims' wording -/

/-- The maximal keyword-occurrence count over the 8 non-neutral categories. -/
def maxKeywordCount (text : String) : Nat :=
  ((categoryScores text).map (fun p => p.2)).foldl max 0

/-- Stated from the spec: the category with strictly highest count, ties
going to the earliest category in the fixed iteration order, neutral when
the maximum count is 0. -/
def labelSpec (text : String) : EmotionLabel :=
  if maxKeywordCount text = 0 then .neutral
  else
    (((categoryScores text).find? (fun p => p.2 = maxKeywordCount text)).map
      (fun p => p.1)).getD .neutral

/-- The scan of the source classifier lands exactly on the spec label and
the maximal count. -/
theorem fallback_best (text : String) :
    bestScan (EmotionLabel.neutral, 0) (categoryScores text) =
      (labelSpec text, maxKeywordCount text) := by
  rcases bestScan_spec (categoryScores text) (EmotionLabel.neutral, 0) with
    ⟨hall, heq⟩ | ⟨l₁, r, l₂, hsplit, heq, hinit, hbef, haft⟩
  · have hzero : ∀ q ∈ categoryScores text, q.2 = 0 := by
      intro q hq
      exact Nat.le_zero.mp (hall q hq)
    have hmax : maxKeywordCount text = 0 := by
      apply Nat.le_zero.mp
      apply foldl_max_le_of (le_refl 0)
      intro x hx
      rcases List.mem_map.mp hx with ⟨q, hq, hxq⟩
      rw [← hxq, hzero q hq]
    rw [heq, labelSpec, if_pos hmax, hmax]
  · have hub : ∀ x ∈ (categoryScores text).map (fun p => p.2), x ≤ r.2 := by
      intro x hx
      rcases List.mem_map.mp hx with ⟨q, hq, hxq⟩
      rw [hsplit] at hq
      rcases List.mem_append.mp hq with h | h
      · exact hxq ▸ le_of_lt (hbef q h)
      · rcases List.mem_cons.mp h with h | h
        · subst h; exact le_of_eq hxq.symm
        · exact hxq ▸ haft q h
    have hmem : r.2 ∈ (categoryScores text).map (fun p => p.2) := by
      rw [hsplit]
      exact List.mem_map.mpr ⟨r, by simp, rfl⟩
    have hmax : maxKeywordCount text = r.2 := foldl_max_eq hmem hub
    have hne : maxKeywordCount text ≠ 0 := by
      rw [hmax]
      exact Nat.pos_iff_ne_zero.mp hinit
    have hfind : (categoryScores text).find? (fun p => p.2 = maxKeywordCount text) =
        some r := by
      rw [hsplit]
      apply find?_first
      · intro q hq
        simp only [decide_eq_false_iff_not]
        rw [hmax]
        exact ne_of_lt (hbef q hq)
      · simp [hmax]
    rw [heq, labelSpec, if_neg hne, hfind]
    simp
    rw [hmax]

/-- Stated from the spec: confidence is 0.3 plus twice the keyword density,
capped at 0.85. -/
def confidenceSpec (text : String) : ℚ :=
  min (0.3 + ((maxKeywordCount text : ℚ) / (wordCount text : ℚ)) * 2) 0.85

/-- Stated from the spec: high on two consecutive uppercase letters, an
exclamation mark, or a count above 2; low on a zero count or a short text;
medium otherwise. -/
def intensitySpec (text : String) : Intensity :=
  if hasTwoConsecUpper text.data || text.data.contains '!' ||
      decide (2 < maxKeywordCount text) then .high
  else if decide (maxKeywordCount text = 0) || decide (text.length < 20) then .low
  else .medium

/-- Stated from the spec: 0.7 for a nervous or stressed label, else 0.3. -/
def stressLevelSpec (text : String) : ℚ :=
  if labelSpec text = .nervous ∨ labelSpec text = .stressed then 0.7 else 0.3

/-- Stated from the spec: 0.8 for an excited or confident label, else 0.5. -/
def energyLevelSpec (text : String) : ℚ :=
  if labelSpec text = .excited ∨ labelSpec text = .confident then 0.8 else 0.5

/-- Stated from the spec: fast above 50 words, slow below 20, else normal. -/
def speakingPaceSpec (text : String) : SpeakingPace :=
  if 50 < wordCount text then .fast
  else if wordCount text < 20 then .slow
  else .normal

/-- Every field of the fallback record, in terms of the spec-side formulas. -/
theorem fallback_fields (text : String) (ts dur : ℚ) :
    fallbackTextAnalysis text ts dur =
      { emotion := some (labelSpec text)
        confidence := confidenceSpec text
        timestamp := ts
        secondsFromStart := ts / 1000
        duration := dur
        intensity := intensitySpec text
        additionalMetrics :=
          { stress_level := stressLevelSpec text
            energy_level := energyLevelSpec text
            speaking_pace := speakingPaceSpec text
            voice_stability := confidenceSpec text } } := by
  unfold fallbackTextAnalysis confidenceSpec intensitySpec stressLevelSpec
    energyLevelSpec speakingPaceSpec
  generalize hb : bestScan (EmotionLabel.neutral, 0) (categoryScores text) = b
  rw [fallback_best] at hb
  subst hb
  generalize labelSpec text = l
  generalize maxKeywordCount text = m
  rfl

/-- The fallback confidence lies between 0.3 and 0.85. -/
theorem confidenceSpec_bounds (text : String) :
    (0.3 : ℚ) ≤ confidenceSpec text ∧ confidenceSpec text ≤ 0.85 := by
  constructor
  · apply le_min
    · have h : (0 : ℚ) ≤ ((maxKeywordCount text : ℚ) / (wordCount text : ℚ)) * 2 := by
        positivity
      linarith
    · norm_num
  · exact min_le_right _ _

/-- C3: for every text the fallback label is the category with strictly
highest keyword-occurrence count, ties to the earliest category in the fixed
order, neutral when the maximum count is 0; the two reference utterances are
labelled confident and nervous. -/
theorem claim_C3_fallback_label :
    (∀ (text : String) (ts dur : ℚ),
      (fallbackTextAnalysis text ts dur).emotion = some (labelSpec text)) ∧
    (fallbackTextAnalysis "I'm absolutely confident about this algorithm, I've implemented binary search many times before." 0 0).emotion = some .confident ∧
    (fallbackTextAnalysis "Um, I'm not really sure about this... maybe I could try a different approach?" 0 0).emotion = some .nervous := by
  refine ⟨?_, by decide, by decide⟩
  intro text ts dur
  rw [fallback_fields]

/-- C8: the fallback record's numeric and categorical outputs equal the
reference formulas, and confidence always lies in the interval
from 0.3 to 0.85. -/
theorem claim_C8_fallback_formulas (text : String) (ts dur : ℚ) :
    (fallbackTextAnalysis text ts dur).confidence = confidenceSpec text ∧
    (0.3 : ℚ) ≤ (fallbackTextAnalysis text ts dur).confidence ∧
    (fallbackTextAnalysis text ts dur).confidence ≤ 0.85 ∧
    (fallbackTextAnalysis text ts dur).intensity = intensitySpec text ∧
    (fallbackTextAnalysis text ts dur).additionalMetrics.stress_level =
      stressLevelSpec text ∧
    (fallbackTextAnalysis text ts dur).additionalMetrics.energy_level =
      energyLevelSpec text ∧
    (fallbackTextAnalysis text ts dur).additionalMetrics.speaking_pace =
      speakingPaceSpec text ∧
    (fallbackTextAnalysis text ts dur).additionalMetrics.voice_stability =
      (fallbackTextAnalysis text ts dur).confidence := by
  have h := fallback_fields text ts dur
  have hconf : (fallbackTextAnalysis text ts dur).confidence = confidenceSpec text := by
    rw [h]
  have hge : (0.3 : ℚ) ≤ (fallbackTextAnalysis text ts dur).confidence := by
    rw [hconf]
    exact (confidenceSpec_bounds text).1
  have hle : (fallbackTextAnalysis text ts dur).confidence ≤ 0.85 := by
    rw [hconf]
    exact (confidenceSpec_bounds text).2
  have hint : (fallbackTextAnalysis text ts dur).intensity = intensitySpec text := by
    rw [h]
  have hsl : (fallbackTextAnalysis text ts dur).additionalMetrics.stress_level =
      stressLevelSpec text := by
    rw [h]
  have hel : (fallbackTextAnalysis text ts dur).additionalMetrics.energy_level =
      energyLevelSpec text := by
    rw [h]
  have hsp : (fallbackTextAnalysis text ts dur).additionalMetrics.speaking_pace =
      speakingPaceSpec text := by
    rw [h]
  have hvs : (fallbackTextAnalysis text ts dur).additionalMetrics.voice_stability =
      (fallbackTextAnalysis text ts dur).confidence := by
    rw [h]
  exact ⟨hconf, hge, hle, hint, hsl, hel, hsp, hvs⟩

/-! ## Claim C5: retry counts and backoff delays -/

/-- C5: when every attempt is throttled the executor makes exactly 3 attempts
with delays 2000 + jitter and 4000 + jitter (strictly increasing, the jitter
lying in the interval from 0 inclusive to 1000 exclusive); a non-throttled
failure on the first attempt yields exactly 1 attempt and no delay. -/
theorem claim_C5_retry_behaviour (f g : Nat → AttemptResult String)
    (jitter : Nat → ℚ)
    (hf : ∀ a, f a = .err true)
    (hj : ∀ i, 0 ≤ jitter i ∧ jitter i < 1000)
    (hg : g 1 = .err false) :
    retryWithBackoff f jitter 3 2000 =
      (.failed true, 3, [2000 + jitter 1, 4000 + jitter 2]) ∧
    2000 + jitter 1 < 4000 + jitter 2 ∧
    retryWithBackoff g jitter 3 2000 = (.failed false, 1, []) := by
  refine ⟨?_, ?_, ?_⟩
  · simp only [retryWithBackoff, retryGo, hf 1, hf 2, hf 3]
    norm_num
  · have h1 := (hj 1).2
    have h2 := (hj 2).1
    linarith
  · simp only [retryWithBackoff, retryGo, hg]
    norm_num

theorem claim_C5_retry_behaviour_witness :
    retryWithBackoff (fun _ => (AttemptResult.err true : AttemptResult String))
        (fun _ => (0 : ℚ)) 3 2000 = (.failed true, 3, [2000 + 0, 4000 + 0]) ∧
    (2000 + (0 : ℚ)) < 4000 + 0 ∧
    retryWithBackoff (fun _ => (AttemptResult.err false : AttemptResult String))
        (fun _ => (0 : ℚ)) 3 2000 = (.failed false, 1, []) :=
  claim_C5_retry_behaviour (fun _ => .err true) (fun _ => .err false)
    (fun _ => 0) (fun _ => rfl) (fun _ => ⟨le_refl 0, by norm_num⟩) rfl

/-! ## Claim C6: bounded FIFO cache -/

/-- C6: inserting a 101st distinct key into a full cache of 100 distinct keys
evicts exactly the oldest-inserted entry and nothing else, leaving 100
entries with the new key present; and an insert never leaves the cache above
100 entries. -/
theorem claim_C6_cache_fifo :
    (∀ (c : EmotionCache) (k : CacheKey) (v : CachedData),
      c.length = 100 → (c.map Prod.fst).Nodup → k ∉ c.map Prod.fst →
      ∃ k₀ v₀ rest, c = (k₀, v₀) :: rest ∧
        cacheInsert c k v = rest ++ [(k, v)] ∧
        (cacheInsert c k v).length = 100 ∧
        k₀ ∉ (cacheInsert c k v).map Prod.fst ∧
        k ∈ (cacheInsert c k v).map Prod.fst) ∧
    (∀ (c : EmotionCache) (k : CacheKey) (v : CachedData),
      c.length ≤ 100 → (cacheInsert c k v).length ≤ 100) := by
  constructor
  · intro c k v hlen hnd hk
    match c, hlen with
    | (k₀, v₀) :: rest, hlen =>
      have hrest : rest.length = 99 := by
        simpa using hlen
      have hany : ((k₀, v₀) :: rest).any (fun p => p.1 = k) = false := by
        simp only [List.any_eq_false, decide_eq_false_iff_not]
        intro p hp hpk
        exact hk (List.mem_map.mpr ⟨p, hp, of_decide_eq_true hpk⟩)
      have hset : cacheSet ((k₀, v₀) :: rest) k v = (k₀, v₀) :: (rest ++ [(k, v)]) := by
        simp [cacheSet, hany]
      have hins : cacheInsert ((k₀, v₀) :: rest) k v = rest ++ [(k, v)] := by
        rw [cacheInsert, hset, evictIfOver, if_pos (by simp [hrest])]
        rfl
      refine ⟨k₀, v₀, rest, rfl, hins, ?_, ?_, ?_⟩
      · rw [hins]
        simp [hrest]
      · rw [hins]
        simp only [List.map_append, List.mem_append, List.map_cons, List.map_nil]
        rintro (h0 | h0)
        · have : k₀ ∈ ((k₀, v₀) :: rest).map Prod.fst → (rest.map Prod.fst).Nodup →
              True := fun _ _ => trivial
          have hnd' := hnd
          simp only [List.map_cons, List.nodup_cons] at hnd'
          exact hnd'.1 h0
        · have : k₀ = k := by simpa using h0
          exact hk (this ▸ List.mem_map.mpr ⟨(k₀, v₀), by simp, rfl⟩)
      · rw [hins]
        simp
  · intro c k v hlen
    by_cases hmem : c.any (fun p => p.1 = k) = true
    · have hset : cacheSet c k v = c.map (fun p => if p.1 = k then (k, v) else p) := by
        simp [cacheSet, hmem]
      have hlen2 : (cacheSet c k v).length = c.length := by
        rw [hset, List.length_map]
      rw [cacheInsert, evictIfOver, if_neg]
      · rwa [hlen2]
      · rw [hlen2]
        omega
    · have hset : cacheSet c k v = c ++ [(k, v)] := by
        simp only [cacheSet]
        rw [if_neg]
        simpa using hmem
      rw [cacheInsert, hset, evictIfOver]
      by_cases hbig : 100 < (c ++ [(k, v)]).length
      · rw [if_pos hbig]
        cases c with
        | nil => simp
        | cons p rest =>
          simp only [List.cons_append, List.tail_cons, List.length_append,
            List.length_cons, List.length_nil] at hbig hlen ⊢
          omega
      · rw [if_neg hbig]
        simp only [List.length_append, List.length_cons, List.length_nil] at hbig ⊢
        omega

/-- A concrete key family for the cache witness, distinguished by duration. -/
def wKey (i : ℕ) : CacheKey := ⟨"t", (i : ℚ)⟩

/-- A concrete cached value for the cache witness. -/
def wVal : CachedData := ⟨some .neutral, 1/2, 0, .medium, ⟨1/2, 1/2, .normal, 1/2⟩⟩

/-- A concrete full cache of 100 distinct keys. -/
def wCache : EmotionCache := (List.range 100).map (fun i => (wKey i, wVal))

theorem claim_C6_cache_fifo_witness :
    wCache.length = 100 ∧
    (wCache.map Prod.fst).Nodup ∧
    wKey 100 ∉ wCache.map Prod.fst ∧
    (∃ k₀ v₀ rest, wCache = (k₀, v₀) :: rest ∧
      cacheInsert wCache (wKey 100) wVal = rest ++ [(wKey 100, wVal)] ∧
      (cacheInsert wCache (wKey 100) wVal).length = 100 ∧
      k₀ ∉ (cacheInsert wCache (wKey 100) wVal).map Prod.fst ∧
      wKey 100 ∈ (cacheInsert wCache (wKey 100) wVal).map Prod.fst) ∧
    (cacheInsert wCache (wKey 100) wVal).length ≤ 100 := by
  have hinj : Function.Injective wKey := by
    intro i j hij
    have := congrArg CacheKey.duration hij
    simpa [wKey, Nat.cast_inj] using this
  have hkeys : wCache.map Prod.fst = (List.range 100).map wKey := by
    simp [wCache]
  have hlen : wCache.length = 100 := by
    simp [wCache]
  have hnd : (wCache.map Prod.fst).Nodup := by
    rw [hkeys]
    exact List.Nodup.map hinj (List.nodup_range 100)
  have hnotmem : wKey 100 ∉ wCache.map Prod.fst := by
    rw [hkeys]
    intro hmem
    rcases List.mem_map.mp hmem with ⟨i, hi, hik⟩
    have : i = 100 := hinj hik
    rw [this] at hi
    exact absurd (List.mem_range.mp hi) (by omega)
  exact ⟨hlen, hnd, hnotmem,
    claim_C6_cache_fifo.1 wCache (wKey 100) wVal hlen hnd hnotmem,
    claim_C6_cache_fifo.2 wCache (wKey 100) wVal (le_of_eq hlen)⟩

/-! ## Claim C2: classify never surfaces a live failure -/

/-- C2: the dispatcher is a total function (the embedding returns a record on
every path, all throw sites of the source being modelled as failure outcomes
absorbed by the catch-all), and whenever a live call was issued and its
outcome is any of the failure classes (throttled retries exhausted, auth
failure, network failure, unparseable reply), the returned record is exactly
the fallback classifier's record for the same text, timestamp and duration. -/
theorem claim_C2_total_availability (env : Env) (cache : EmotionCache)
    (text : String) (ts dur : ℚ) (outcome : LiveOutcome)
    (hfail : outcome.isFailure = true)
    (hlive : (analyzeTextEmotion env cache text ts dur outcome).liveCalled = true) :
    (analyzeTextEmotion env cache text ts dur outcome).record =
      fallbackTextAnalysis text ts dur := by
  revert hlive
  unfold analyzeTextEmotion
  split
  · intro h
    exact absurd h (by simp)
  · split
    · intro h
      exact absurd h (by simp)
    · split
      · intro h
        exact absurd h (by simp)
      · cases outcome with
        | success a => exact absurd hfail (by simp [LiveOutcome.isFailure])
        | throttledExhausted => intro _; rfl
        | authFailure => intro _; rfl
        | networkFailure => intro _; rfl
        | parseFailure => intro _; rfl

theorem claim_C2_total_availability_witness :
    (LiveOutcome.networkFailure.isFailure = true) ∧
    ((analyzeTextEmotion ⟨"key", false⟩ [] "tell me about your project" 0 0
        .networkFailure).liveCalled = true) ∧
    (analyzeTextEmotion ⟨"key", false⟩ [] "tell me about your project" 0 0
        .networkFailure).record = fallbackTextAnalysis "tell me about your project" 0 0 :=
  ⟨rfl, by decide,
    claim_C2_total_availability ⟨"key", false⟩ [] "tell me about your project" 0 0
      .networkFailure rfl (by decide)⟩

/-! ## Claim C9: short texts always take the fallback path -/

/-- Lowercasing is length-preserving, so a cache key's text part has the
length of the trimmed source text. -/
theorem lowerStr_length (s : String) : (lowerStr s).length = s.length := by
  show (s.data.map Char.toLower).length = s.data.length
  exact List.length_map s.data Char.toLower

/-- Keys ever written by the dispatcher come from texts whose trimmed length
is at least 10 (the live path is only reached past the short-text check). -/
def cacheKeysLong (c : EmotionCache) : Prop :=
  ∀ p ∈ c, 10 ≤ p.1.text.length

/-- The dispatcher preserves the key-length invariant: the only write happens
on the live-success path, after the short-text check, with the key text being
the lowercased trimmed input. -/
theorem analyzeTextEmotion_preserves_cacheKeysLong (env : Env)
    (cache : EmotionCache) (text : String) (ts dur : ℚ) (outcome : LiveOutcome)
    (hc : cacheKeysLong cache) :
    cacheKeysLong (analyzeTextEmotion env cache text ts dur outcome).cache := by
  unfold analyzeTextEmotion
  split
  · exact hc
  · split
    · exact hc
    · split
      · exact hc
      · cases outcome with
        | success a =>
          intro p hp
          have hlong : 10 ≤ (mkCacheKey text dur).text.length := by
            simp only [mkCacheKey, lowerStr_length]
            omega
          simp only [cacheInsert, evictIfOver] at hp
          have hp' : p ∈ cacheSet cache (mkCacheKey text dur)
              (toCached (buildLiveRecord a ts dur)) := by
            by_cases hbig : 100 < (cacheSet cache (mkCacheKey text dur)
                (toCached (buildLiveRecord a ts dur))).length
            · rw [if_pos hbig] at hp
              exact List.mem_of_mem_tail hp
            · rwa [if_neg hbig] at hp
          simp only [cacheSet] at hp'
          by_cases hmem : cache.any (fun q => q.1 = mkCacheKey text dur) = true
          · rw [if_pos hmem] at hp'
            rcases List.mem_map.mp hp' with ⟨q, hq, hqp⟩
            by_cases hqk : q.1 = mkCacheKey text dur
            · rw [if_pos hqk] at hqp
              rw [← hqp]
              exact hlong
            · rw [if_neg hqk] at hqp
              rw [← hqp]
              exact hc q hq
          · rw [if_neg hmem] at hp'
            rcases List.mem_append.mp hp' with h | h
            · exact hc p h
            · have : p = (mkCacheKey text dur, toCached (buildLiveRecord a ts dur)) := by
                simpa using h
              rw [this]
              exact hlong
        | throttledExhausted => exact hc
        | authFailure => exact hc
        | networkFailure => exact hc
        | parseFailure => exact hc

/-- C9: with a configured key and fallback-only off, a text whose trimmed
length is under 10 characters always yields the fallback record, issues no
live call and leaves the cache untouched; the cache cannot hit because every
cached key comes from a text of trimmed length at least 10. -/
theorem claim_C9_short_text_fallback (env : Env) (cache : EmotionCache)
    (text : String) (ts dur : ℚ) (outcome : LiveOutcome)
    (hkey : env.apiKey ≠ "") (hfb : env.fallbackOnly = false)
    (hc : cacheKeysLong cache)
    (hshort : (trimStr text).length < 10) :
    analyzeTextEmotion env cache text ts dur outcome =
      ⟨fallbackTextAnalysis text ts dur, cache, false⟩ := by
  have hmiss : cacheGet cache (mkCacheKey text dur) = none := by
    unfold cacheGet
    rw [List.find?_eq_none.mpr]
    · rfl
    · intro p hp
      simp only [decide_eq_true_eq]
      intro hpk
      have h1 := hc p hp
      rw [hpk] at h1
      simp only [mkCacheKey, lowerStr_length] at h1
      omega
  unfold analyzeTextEmotion
  rw [if_neg (by simp [hfb, hkey]), hmiss, if_pos hshort]

theorem claim_C9_short_text_fallback_witness :
    ((Env.mk "key" false).apiKey ≠ "") ∧
    ((trimStr "hi").length < 10) ∧
    analyzeTextEmotion ⟨"key", false⟩ [] "hi" 0 0 .parseFailure =
      ⟨fallbackTextAnalysis "hi" 0 0, [], false⟩ :=
  ⟨by decide, by decide,
    claim_C9_short_text_fallback ⟨"key", false⟩ [] "hi" 0 0 .parseFailure
      (by decide) rfl (by intro p hp; cases hp) (by decide)⟩

/-! ## Claim C1: range of confidence and the metric floats -/

/-- Unit-interval membership. -/
def inUnit (q : ℚ) : Prop := 0 ≤ q ∧ q ≤ 1

/-- All three metric floats lie in the unit interval. -/
def metricsInUnit (m : EmotionMetrics) : Prop :=
  inUnit m.stress_level ∧ inUnit m.energy_level ∧ inUnit m.voice_stability

/-- Every numeric metric field of a parsed reply that is present lies in the
unit interval. -/
def replyMetricsInUnit (a : LiveAnalysis) : Prop :=
  (∀ v, a.stress_level = some v → inUnit v) ∧
  (∀ v, a.energy_level = some v → inUnit v) ∧
  (∀ v, a.voice_stability = some v → inUnit v)

/-- The fallback record always has confidence and all metric floats in the
unit interval. -/
theorem fallback_record_inUnit (text : String) (ts dur : ℚ) :
    inUnit (fallbackTextAnalysis text ts dur).confidence ∧
    metricsInUnit (fallbackTextAnalysis text ts dur).additionalMetrics := by
  have h := fallback_fields text ts dur
  have hb := confidenceSpec_bounds text
  have hconf : (fallbackTextAnalysis text ts dur).confidence = confidenceSpec text := by
    rw [h]
  have hsl : (fallbackTextAnalysis text ts dur).additionalMetrics.stress_level =
      stressLevelSpec text := by
    rw [h]
  have hel : (fallbackTextAnalysis text ts dur).additionalMetrics.energy_level =
      energyLevelSpec text := by
    rw [h]
  have hvs : (fallbackTextAnalysis text ts dur).additionalMetrics.voice_stability =
      confidenceSpec text := by
    rw [h]
  have hcu : inUnit (confidenceSpec text) :=
    ⟨le_trans (by norm_num) hb.1, le_trans hb.2 (by norm_num)⟩
  refine ⟨by rw [hconf]; exact hcu, ?_, ?_, by rw [hvs]; exact hcu⟩
  · rw [hsl]
    unfold stressLevelSpec
    split
    · exact ⟨by norm_num, by norm_num⟩
    · exact ⟨by norm_num, by norm_num⟩
  · rw [hel]
    unfold energyLevelSpec
    split
    · exact ⟨by norm_num, by norm_num⟩
    · exact ⟨by norm_num, by norm_num⟩

/-- A falsiness-defaulted field is in the unit interval whenever the present
value is. -/
theorem jsOr_inUnit {x : Option ℚ} (hx : ∀ v, x = some v → inUnit v) :
    inUnit (jsOr x 0.5) := by
  cases x with
  | none => exact ⟨by norm_num [jsOr], by norm_num [jsOr]⟩
  | some v =>
    simp only [jsOr]
    split
    · exact ⟨by norm_num, by norm_num⟩
    · exact hx v rfl

/-- C1 amended: the returned record's confidence always lies in the unit
interval (the live path clamps it, the fallback path keeps it in the band
from 0.3 to 0.85, and a cache hit replays a confidence that was clamped when
it was stored — an invariant stated as the hypothesis and proven preserved
by the dispatcher below); for the metric floats, the returned record is on
every run one of three things: the fallback record, whose metric floats lie
in the unit interval unconditionally; the live-success record, whose metric
floats lie in the unit interval provided the metric values present in the
reply do — the live path does not clamp them; or the replay of a cached
entry, whose metric floats are exactly that entry's. -/
theorem claim_C1_amended_ranges (env : Env) (cache : EmotionCache)
    (text : String) (ts dur : ℚ) (outcome : LiveOutcome)
    (hcconf : ∀ p ∈ cache, inUnit p.2.confidence) :
    inUnit (analyzeTextEmotion env cache text ts dur outcome).record.confidence ∧
    (((analyzeTextEmotion env cache text ts dur outcome).record =
        fallbackTextAnalysis text ts dur ∧
      metricsInUnit
        (analyzeTextEmotion env cache text ts dur outcome).record.additionalMetrics) ∨
     (∃ a, outcome = .success a ∧
       (analyzeTextEmotion env cache text ts dur outcome).record =
         buildLiveRecord a ts dur ∧
       (replyMetricsInUnit a →
         metricsInUnit
           (analyzeTextEmotion env cache text ts dur outcome).record.additionalMetrics)) ∨
     (∃ p, p ∈ cache ∧
       (analyzeTextEmotion env cache text ts dur outcome).record = fromCached p.2 ts ∧
       (metricsInUnit p.2.additionalMetrics →
         metricsInUnit
           (analyzeTextEmotion env cache text ts dur outcome).record.additionalMetrics))) := by
  unfold analyzeTextEmotion
  split
  · exact ⟨(fallback_record_inUnit text ts dur).1,
      Or.inl ⟨rfl, (fallback_record_inUnit text ts dur).2⟩⟩
  · split
    · rename_i cached heq
      have hmem : ∃ p ∈ cache, p.2 = cached := by
        unfold cacheGet at heq
        rcases Option.map_eq_some'.mp heq with ⟨p, hfind, hp2⟩
        exact ⟨p, List.mem_of_find?_eq_some hfind, hp2⟩
      rcases hmem with ⟨p, hp, hp2⟩
      refine ⟨?_, Or.inr (Or.inr ⟨p, hp, ?_, ?_⟩)⟩
      · show inUnit cached.confidence
        rw [← hp2]
        exact hcconf p hp
      · show fromCached cached ts = fromCached p.2 ts
        rw [hp2]
      · intro hm
        show metricsInUnit cached.additionalMetrics
        rw [← hp2]
        exact hm
    · split
      · exact ⟨(fallback_record_inUnit text ts dur).1,
          Or.inl ⟨rfl, (fallback_record_inUnit text ts dur).2⟩⟩
      · cases outcome with
        | success a =>
          refine ⟨?_, Or.inr (Or.inl ⟨a, rfl, rfl, ?_⟩)⟩
          · show inUnit (min (max (jsOr a.confidence 0.5) 0) 1)
            exact ⟨le_min (le_max_right _ 0) (by norm_num), min_le_right _ _⟩
          · intro hr
            exact ⟨jsOr_inUnit hr.1, jsOr_inUnit hr.2.1, jsOr_inUnit hr.2.2⟩
        | throttledExhausted =>
          exact ⟨(fallback_record_inUnit text ts dur).1,
            Or.inl ⟨rfl, (fallback_record_inUnit text ts dur).2⟩⟩
        | authFailure =>
          exact ⟨(fallback_record_inUnit text ts dur).1,
            Or.inl ⟨rfl, (fallback_record_inUnit text ts dur).2⟩⟩
        | networkFailure =>
          exact ⟨(fallback_record_inUnit text ts dur).1,
            Or.inl ⟨rfl, (fallback_record_inUnit text ts dur).2⟩⟩
        | parseFailure =>
          exact ⟨(fallback_record_inUnit text ts dur).1,
            Or.inl ⟨rfl, (fallback_record_inUnit text ts dur).2⟩⟩

/-- The dispatcher preserves the cached-confidence invariant: the only cache
write stores the live record's confidence, which is clamped into the unit
interval before being cached. -/
theorem analyzeTextEmotion_preserves_cacheConfInUnit (env : Env)
    (cache : EmotionCache) (text : String) (ts dur : ℚ) (outcome : LiveOutcome)
    (hc : ∀ p ∈ cache, inUnit p.2.confidence) :
    ∀ p ∈ (analyzeTextEmotion env cache text ts dur outcome).cache,
      inUnit p.2.confidence := by
  unfold analyzeTextEmotion
  split
  · exact hc
  · split
    · exact hc
    · split
      · exact hc
      · cases outcome with
        | success a =>
          intro p hp
          have hconf : inUnit (toCached (buildLiveRecord a ts dur)).confidence := by
            show inUnit (min (max (jsOr a.confidence 0.5) 0) 1)
            exact ⟨le_min (le_max_right _ 0) (by norm_num), min_le_right _ _⟩
          simp only [cacheInsert, evictIfOver] at hp
          have hp' : p ∈ cacheSet cache (mkCacheKey text dur)
              (toCached (buildLiveRecord a ts dur)) := by
            by_cases hbig : 100 < (cacheSet cache (mkCacheKey text dur)
                (toCached (buildLiveRecord a ts dur))).length
            · rw [if_pos hbig] at hp
              exact List.mem_of_mem_tail hp
            · rwa [if_neg hbig] at hp
          simp only [cacheSet] at hp'
          by_cases hmem : cache.any (fun q => q.1 = mkCacheKey text dur) = true
          · rw [if_pos hmem] at hp'
            rcases List.mem_map.mp hp' with ⟨q, hq, hqp⟩
            by_cases hqk : q.1 = mkCacheKey text dur
            · rw [if_pos hqk] at hqp
              rw [← hqp]
              exact hconf
            · rw [if_neg hqk] at hqp
              rw [← hqp]
              exact hc q hq
          · rw [if_neg hmem] at hp'
            rcases List.mem_append.mp hp' with h | h
            · exact hc p h
            · have hpe : p = (mkCacheKey text dur, toCached (buildLiveRecord a ts dur)) := by
                simpa using h
              rw [hpe]
              exact hconf
        | throttledExhausted => exact hc
        | authFailure => exact hc
        | networkFailure => exact hc
        | parseFailure => exact hc

/-- A parsed reply whose stress level is 2: syntactically valid, so the
success path builds a record from it without clamping the metric. -/
def overRangeReply : LiveAnalysis :=
  ⟨some .happy, some 0.8, some .medium, some 2, some 0.5, some .normal, some 0.5⟩

/-- C1 counterexample: a live reply carrying stress level 2 produces, on the
live path, a returned record whose stress level is 2, outside the unit
interval — so not every returned record has all metric floats in the unit
interval. -/
theorem claim_C1_counterexample :
    (analyzeTextEmotion ⟨"key", false⟩ [] "tell me about your background" 0 0
      (.success overRangeReply)).liveCalled = true ∧
    (analyzeTextEmotion ⟨"key", false⟩ [] "tell me about your background" 0 0
      (.success overRangeReply)).record.additionalMetrics.stress_level = 2 ∧
    ¬ ((analyzeTextEmotion ⟨"key", false⟩ [] "tell me about your background" 0 0
      (.success overRangeReply)).record.additionalMetrics.stress_level ≤ 1) :=
  ⟨by decide, by decide, by decide⟩

/-- A parsed reply with every numeric field present and inside the unit
interval. -/
def inRangeReply : LiveAnalysis :=
  ⟨some .happy, some 0.8, some .medium, some 0.4, some 0.5, some .normal, some 0.9⟩

theorem claim_C1_amended_ranges_witness :
    inUnit (analyzeTextEmotion ⟨"key", false⟩ [] "tell me about your background" 0 0
      (.success inRangeReply)).record.confidence ∧
    (((analyzeTextEmotion ⟨"key", false⟩ [] "tell me about your background" 0 0
        (.success inRangeReply)).record =
        fallbackTextAnalysis "tell me about your background" 0 0 ∧
      metricsInUnit (analyzeTextEmotion ⟨"key", false⟩ [] "tell me about your background" 0 0
        (.success inRangeReply)).record.additionalMetrics) ∨
     (∃ a, LiveOutcome.success inRangeReply = .success a ∧
       (analyzeTextEmotion ⟨"key", false⟩ [] "tell me about your background" 0 0
         (.success inRangeReply)).record = buildLiveRecord a 0 0 ∧
       (replyMetricsInUnit a →
         metricsInUnit (analyzeTextEmotion ⟨"key", false⟩ [] "tell me about your background" 0 0
           (.success inRangeReply)).record.additionalMetrics)) ∨
     (∃ p, p ∈ ([] : EmotionCache) ∧
       (analyzeTextEmotion ⟨"key", false⟩ [] "tell me about your background" 0 0
         (.success inRangeReply)).record = fromCached p.2 0 ∧
       (metricsInUnit p.2.additionalMetrics →
         metricsInUnit (analyzeTextEmotion ⟨"key", false⟩ [] "tell me about your background" 0 0
           (.success inRangeReply)).record.additionalMetrics))) :=
  claim_C1_amended_ranges ⟨"key", false⟩ [] "tell me about your background" 0 0
    (.success inRangeReply) (by intro p hp; cases hp)

/-! ## Claim C10: falsiness defaulting on the live path -/

/-- A falsiness-defaulted field with default one half is never zero. -/
theorem jsOr_half_ne_zero (x : Option ℚ) : jsOr x 0.5 ≠ 0 := by
  cases x with
  | none => norm_num [jsOr]
  | some v =>
    simp only [jsOr]
    split
    · norm_num
    · assumption

/-- The clamp of the live confidence hits zero exactly when the defaulted
value is nonpositive. -/
theorem clamp_eq_zero_iff (x : ℚ) : min (max x 0) 1 = 0 ↔ x ≤ 0 := by
  constructor
  · intro h
    by_contra hx
    push_neg at hx
    have h1 : (0 : ℚ) < max x 0 := lt_of_lt_of_le hx (le_max_left x 0)
    have h2 : (0 : ℚ) < min (max x 0) 1 := lt_min h1 one_pos
    rw [h] at h2
    exact lt_irrefl 0 h2
  · intro h
    rw [max_eq_right h]
    exact min_eq_left (by norm_num)

/-- C10 amended: on the live-success path missing-field defaulting is by
falsiness, so a metric field present but equal to 0 yields 0.5 (not 0), and
no metric float of a live record is ever exactly 0; the confidence, however,
is clamped after defaulting, and is exactly 0 precisely when the reply's
confidence is present and negative. -/
theorem claim_C10_amended_falsiness (a : LiveAnalysis) (ts dur : ℚ) :
    (a.confidence = some 0 → (buildLiveRecord a ts dur).confidence = 0.5) ∧
    (a.stress_level = some 0 →
      (buildLiveRecord a ts dur).additionalMetrics.stress_level = 0.5) ∧
    (a.energy_level = some 0 →
      (buildLiveRecord a ts dur).additionalMetrics.energy_level = 0.5) ∧
    (a.voice_stability = some 0 →
      (buildLiveRecord a ts dur).additionalMetrics.voice_stability = 0.5) ∧
    (buildLiveRecord a ts dur).additionalMetrics.stress_level ≠ 0 ∧
    (buildLiveRecord a ts dur).additionalMetrics.energy_level ≠ 0 ∧
    (buildLiveRecord a ts dur).additionalMetrics.voice_stability ≠ 0 ∧
    ((buildLiveRecord a ts dur).confidence = 0 ↔
      ∃ v, a.confidence = some v ∧ v < 0) := by
  have hz : ∀ x : Option ℚ, x = some 0 → jsOr x 0.5 = 0.5 := by
    intro x hx
    rw [hx]
    norm_num [jsOr]
  refine ⟨?_, ?_, ?_, ?_, jsOr_half_ne_zero _, jsOr_half_ne_zero _, jsOr_half_ne_zero _, ?_⟩
  · intro h
    show min (max (jsOr a.confidence 0.5) 0) 1 = 0.5
    rw [hz _ h]
    norm_num
  · exact fun h => hz _ h
  · exact fun h => hz _ h
  · exact fun h => hz _ h
  · show min (max (jsOr a.confidence 0.5) 0) 1 = 0 ↔ ∃ v, a.confidence = some v ∧ v < 0
    rw [clamp_eq_zero_iff]
    cases hx : a.confidence with
    | none =>
      simp only [jsOr]
      constructor
      · intro h
        norm_num at h
      · rintro ⟨v, hv, _⟩
        cases hv
    | some v =>
      simp only [jsOr]
      split
      · rename_i hv0
        subst hv0
        constructor
        · intro h
          norm_num at h
        · rintro ⟨w, hw, hwneg⟩
          rw [Option.some_inj] at hw
          rw [← hw] at hwneg
          exact absurd hwneg (by norm_num)
      · rename_i hvne
        constructor
        · intro h
          exact ⟨v, rfl, lt_of_le_of_ne h hvne⟩
        · rintro ⟨w, hw, hwneg⟩
          rw [Option.some_inj] at hw
          rw [hw]
          exact le_of_lt hwneg

/-- A reply carrying a negative confidence. -/
def negConfReply : LiveAnalysis :=
  ⟨some .happy, some (-1), some .medium, some 0.5, some 0.5, some .normal, some 0.5⟩

/-- C10 counterexample: a live reply with confidence -1 produces, on the live
path, a record whose confidence is exactly 0 — so it is not true that no
live-path record ever carries a 0 in those fields. -/
theorem claim_C10_counterexample :
    (analyzeTextEmotion ⟨"key", false⟩ [] "tell me about your background" 0 0
      (.success negConfReply)).liveCalled = true ∧
    (analyzeTextEmotion ⟨"key", false⟩ [] "tell me about your background" 0 0
      (.success negConfReply)).record.confidence = 0 :=
  ⟨by decide, by decide⟩

/-- A reply in which every numeric field is present but zero. -/
def zeroFieldsReply : LiveAnalysis :=
  ⟨some .neutral, some 0, some .medium, some 0, some 0, some .normal, some 0⟩

theorem claim_C10_amended_falsiness_witness :
    (buildLiveRecord zeroFieldsReply 0 0).confidence = 0.5 ∧
    (buildLiveRecord zeroFieldsReply 0 0).additionalMetrics.stress_level = 0.5 ∧
    (buildLiveRecord zeroFieldsReply 0 0).additionalMetrics.energy_level = 0.5 ∧
    (buildLiveRecord zeroFieldsReply 0 0).additionalMetrics.voice_stability = 0.5 :=
  ⟨(claim_C10_amended_falsiness zeroFieldsReply 0 0).1 rfl,
   (claim_C10_amended_falsiness zeroFieldsReply 0 0).2.1 rfl,
   (claim_C10_amended_falsiness zeroFieldsReply 0 0).2.2.1 rfl,
   (claim_C10_amended_falsiness zeroFieldsReply 0 0).2.2.2.1 rfl⟩

/-! ## Claim C4: counting machinery for the most frequent label -/

/-- Number of occurrences of a key in a list. -/
def countIn [DecidableEq α] (ls : List α) (a : α) : Nat :=
  (ls.filter (fun x => decide (x = a))).length

/-- Index of the first occurrence of a key (the list's length if absent). -/
def firstIdx [DecidableEq α] (ls : List α) (a : α) : Nat :=
  ls.findIdx (fun x => decide (x = a))

theorem countIn_append_singleton [DecidableEq α] (ls : List α) (b a : α) :
    countIn (ls ++ [b]) a = countIn ls a + (if b = a then 1 else 0) := by
  simp only [countIn, List.filter_append, List.length_append]
  congr 1
  by_cases hb : b = a
  · simp [hb]
  · simp [hb]

theorem countIn_eq_zero_of_not_mem [DecidableEq α] {ls : List α} {a : α}
    (h : a ∉ ls) : countIn ls a = 0 := by
  simp only [countIn, List.length_eq_zero, List.filter_eq_nil_iff]
  intro x hx
  simp only [decide_eq_true_eq]
  intro hxa
  exact h (hxa ▸ hx)

theorem countIn_pos_of_mem [DecidableEq α] {ls : List α} {a : α}
    (h : a ∈ ls) : 0 < countIn ls a := by
  have : a ∈ ls.filter (fun x => decide (x = a)) :=
    List.mem_filter.mpr ⟨h, by simp⟩
  simp only [countIn]
  exact List.length_pos.mpr (List.ne_nil_of_mem this)

theorem mem_of_countIn_pos [DecidableEq α] {ls : List α} {a : α}
    (h : 0 < countIn ls a) : a ∈ ls := by
  by_contra hmem
  rw [countIn_eq_zero_of_not_mem hmem] at h
  exact lt_irrefl 0 h

theorem firstIdx_lt_length [DecidableEq α] {ls : List α} {a : α} (h : a ∈ ls) :
    firstIdx ls a < ls.length := by
  induction ls with
  | nil => cases h
  | cons x t ih =>
    by_cases hx : x = a
    · simp [firstIdx, List.findIdx_cons, hx]
    · rcases List.mem_cons.mp h with h1 | h1
      · exact absurd h1.symm hx
      · simp only [firstIdx, List.findIdx_cons, decide_eq_false hx, cond_false,
          List.length_cons]
        exact Nat.succ_lt_succ (ih h1)

theorem firstIdx_append_of_mem [DecidableEq α] {ls : List α} {a : α}
    (h : a ∈ ls) (t : List α) : firstIdx (ls ++ t) a = firstIdx ls a := by
  induction ls with
  | nil => cases h
  | cons x r ih =>
    by_cases hx : x = a
    · simp [firstIdx, List.findIdx_cons, hx]
    · rcases List.mem_cons.mp h with h1 | h1
      · exact absurd h1.symm hx
      · simp only [firstIdx, List.cons_append, List.findIdx_cons, decide_eq_false hx,
          cond_false]
        exact congrArg (· + 1) (ih h1)

theorem firstIdx_append_self [DecidableEq α] {ls : List α} {a : α}
    (h : a ∉ ls) : firstIdx (ls ++ [a]) a = ls.length := by
  induction ls with
  | nil => simp [firstIdx, List.findIdx_cons]
  | cons x r ih =>
    have hx : x ≠ a := fun hxa => h (hxa ▸ List.mem_cons_self x r)
    have hr : a ∉ r := fun ha => h (List.mem_cons_of_mem x ha)
    simp only [List.cons_append, firstIdx, List.findIdx_cons, decide_eq_false hx,
      cond_false, List.length_cons]
    exact congrArg (· + 1) (ih hr)

theorem countTable_append [DecidableEq α] (ls : List α) (b : α) :
    countTable (ls ++ [b]) = bumpCount (countTable ls) b := by
  simp [countTable, List.foldl_append]

/-- Updating a key in place leaves the key list unchanged. -/
theorem bump_update_keys [DecidableEq α] (t : List (α × Nat)) (b : α) :
    (t.map (fun p => if p.1 = b then (p.1, p.2 + 1) else p)).map Prod.fst =
      t.map Prod.fst := by
  rw [List.map_map]
  congr 1
  funext p
  by_cases hp : p.1 = b
  · simp [hp]
  · simp [hp]

/-- A key is in the table exactly when it occurs in the list. -/
theorem countTable_mem_keys [DecidableEq α] (ls : List α) :
    ∀ a, a ∈ (countTable ls).map Prod.fst ↔ a ∈ ls := by
  induction ls using List.reverseRecOn with
  | nil =>
    intro a
    simp [countTable]
  | append_singleton l b ih =>
    intro a
    rw [countTable_append]
    unfold bumpCount
    by_cases hb : (countTable l).any (fun p => decide (p.1 = b)) = true
    · rw [if_pos hb, bump_update_keys]
      have hbl : b ∈ l := by
        rcases List.any_eq_true.mp hb with ⟨p, hp, hpb⟩
        have hpb' : p.1 = b := of_decide_eq_true hpb
        exact (ih b).mp (List.mem_map.mpr ⟨p, hp, hpb'⟩)
      rw [ih a]
      constructor
      · intro h
        exact List.mem_append.mpr (Or.inl h)
      · intro h
        rcases List.mem_append.mp h with h | h
        · exact h
        · have : a = b := by simpa using h
          exact this ▸ hbl
    · rw [if_neg hb]
      simp only [List.map_append, List.map_cons, List.map_nil, List.mem_append,
        List.mem_cons, List.not_mem_nil, or_false, ih a]

/-- Every table entry carries the exact occurrence count of its key. -/
theorem countTable_val [DecidableEq α] (ls : List α) :
    ∀ p ∈ countTable ls, p.2 = countIn ls p.1 := by
  induction ls using List.reverseRecOn with
  | nil => simp [countTable]
  | append_singleton l b ih =>
    rw [countTable_append]
    unfold bumpCount
    by_cases hb : (countTable l).any (fun p => decide (p.1 = b)) = true
    · rw [if_pos hb]
      intro p hp
      rcases List.mem_map.mp hp with ⟨q, hq, hqp⟩
      by_cases hqb : q.1 = b
      · rw [if_pos hqb] at hqp
        rw [← hqp]
        simp only
        rw [countIn_append_singleton, if_pos hqb.symm, ih q hq, hqb]
      · rw [if_neg hqb] at hqp
        rw [← hqp]
        rw [countIn_append_singleton, if_neg (fun hbq => hqb hbq.symm), ih q hq,
          Nat.add_zero]
    · rw [if_neg hb]
      intro p hp
      rcases List.mem_append.mp hp with hp | hp
      · have hpb : p.1 ≠ b := by
          intro hpb
          apply hb
          exact List.any_eq_true.mpr ⟨p, hp, decide_eq_true hpb⟩
        rw [countIn_append_singleton, if_neg (fun hbp => hpb hbp.symm), ih p hp,
          Nat.add_zero]
      · have hpe : p = (b, 1) := by simpa using hp
        have hbl : b ∉ l := by
          intro hbl
          apply hb
          rcases List.mem_map.mp ((countTable_mem_keys l b).mpr hbl) with ⟨q, hq, hqb⟩
          exact List.any_eq_true.mpr ⟨q, hq, decide_eq_true hqb⟩
        rw [hpe]
        simp only
        rw [countIn_append_singleton, if_pos rfl, countIn_eq_zero_of_not_mem hbl]

/-- The table's keys are distinct. -/
theorem countTable_keys_nodup [DecidableEq α] (ls : List α) :
    ((countTable ls).map Prod.fst).Nodup := by
  induction ls using List.reverseRecOn with
  | nil => simp [countTable]
  | append_singleton l b ih =>
    rw [countTable_append]
    unfold bumpCount
    by_cases hb : (countTable l).any (fun p => decide (p.1 = b)) = true
    · rw [if_pos hb, bump_update_keys]
      exact ih
    · rw [if_neg hb]
      have hbk : b ∉ (countTable l).map Prod.fst := by
        intro hbk
        apply hb
        rcases List.mem_map.mp hbk with ⟨q, hq, hqb⟩
        exact List.any_eq_true.mpr ⟨q, hq, decide_eq_true hqb⟩
      simp only [List.map_append, List.map_cons, List.map_nil]
      rw [List.nodup_append]
      refine ⟨ih, List.nodup_singleton b, ?_⟩
      intro a ha hab
      have hcb : a = b := by simpa using hab
      rw [hcb] at ha
      exact hbk ha

/-- The table's keys appear in order of first occurrence. -/
theorem countTable_keys_sorted [DecidableEq α] (ls : List α) :
    ((countTable ls).map Prod.fst).Pairwise
      (fun a c => firstIdx ls a < firstIdx ls c) := by
  induction ls using List.reverseRecOn with
  | nil => simp [countTable]
  | append_singleton l b ih =>
    rw [countTable_append]
    unfold bumpCount
    by_cases hb : (countTable l).any (fun p => decide (p.1 = b)) = true
    · rw [if_pos hb, bump_update_keys]
      apply ih.imp_of_mem
      intro a c ha hc hrel
      have hal : a ∈ l := (countTable_mem_keys l a).mp ha
      have hcl : c ∈ l := (countTable_mem_keys l c).mp hc
      rw [firstIdx_append_of_mem hal, firstIdx_append_of_mem hcl]
      exact hrel
    · rw [if_neg hb]
      have hbl : b ∉ l := by
        intro hbl
        apply hb
        rcases List.mem_map.mp ((countTable_mem_keys l b).mpr hbl) with ⟨q, hq, hqb⟩
        exact List.any_eq_true.mpr ⟨q, hq, decide_eq_true hqb⟩
      simp only [List.map_append, List.map_cons, List.map_nil]
      rw [List.pairwise_append]
      refine ⟨?_, List.pairwise_singleton _ _, ?_⟩
      · apply ih.imp_of_mem
        intro a c ha hc hrel
        have hal : a ∈ l := (countTable_mem_keys l a).mp ha
        have hcl : c ∈ l := (countTable_mem_keys l c).mp hc
        rw [firstIdx_append_of_mem hal, firstIdx_append_of_mem hcl]
        exact hrel
      · intro a ha c hc
        have hcb : c = b := by simpa using hc
        have hal : a ∈ l := (countTable_mem_keys l a).mp ha
        rw [hcb, firstIdx_append_of_mem hal, firstIdx_append_self hbl]
        exact firstIdx_lt_length hal

/-- The source's head-of-stable-descending-sort equals the first entry whose
count attains the maximum: everything before it is strictly smaller,
everything after no larger. -/
theorem bestScan_first_max (p : α × Nat) (ps : List (α × Nat)) :
    ∃ l₁ l₂, p :: ps = l₁ ++ bestScan p ps :: l₂ ∧
      (∀ q ∈ l₁, q.2 < (bestScan p ps).2) ∧
      (∀ q ∈ l₂, q.2 ≤ (bestScan p ps).2) := by
  rcases bestScan_spec ps p with ⟨hall, heq⟩ | ⟨l₁, r, l₂, hsplit, heq, hinit, hbef, haft⟩
  · refine ⟨[], ps, by rw [heq, List.nil_append], by simp, ?_⟩
    rw [heq]
    exact hall
  · refine ⟨p :: l₁, l₂, by rw [heq, hsplit, List.cons_append], ?_, ?_⟩
    · intro q hq
      rw [heq]
      rcases List.mem_cons.mp hq with h1 | h1
      · rw [h1]
        exact hinit
      · exact hbef q h1
    · rw [heq]
      exact haft

/-- C4: for a non-empty record list, mostFrequentEmotion occurs in the list,
its occurrence count is maximal, and among the labels attaining that maximal
count it is the one whose first occurrence in the scan comes earliest. -/
theorem claim_C4_most_frequent (es : List EmotionData) (h : es ≠ []) :
    (calculateEmotionSummary es).mostFrequentEmotion ∈ es.map (fun e => e.emotion) ∧
    (∀ l, countIn (es.map (fun e => e.emotion)) l ≤
      countIn (es.map (fun e => e.emotion))
        ((calculateEmotionSummary es).mostFrequentEmotion)) ∧
    (∀ l, countIn (es.map (fun e => e.emotion)) l =
        countIn (es.map (fun e => e.emotion))
          ((calculateEmotionSummary es).mostFrequentEmotion) →
      firstIdx (es.map (fun e => e.emotion))
          ((calculateEmotionSummary es).mostFrequentEmotion) ≤
        firstIdx (es.map (fun e => e.emotion)) l) := by
  set ls := es.map (fun e => e.emotion) with hls
  have hlsne : ls ≠ [] := by
    cases es with
    | nil => exact absurd rfl h
    | cons e t => simp [hls]
  have hemp : es.isEmpty = false := by
    cases es with
    | nil => exact absurd rfl h
    | cons e t => rfl
  have hmf : (calculateEmotionSummary es).mostFrequentEmotion =
      match countTable ls with
      | [] => some .neutral
      | p :: ps => (bestScan p ps).1 := by
    unfold calculateEmotionSummary
    rw [if_neg (by simp [hemp])]
    rfl
  cases hct : countTable ls with
  | nil =>
    exfalso
    rcases List.exists_mem_of_ne_nil ls hlsne with ⟨a, ha⟩
    have hk := (countTable_mem_keys ls a).mpr ha
    rw [hct] at hk
    cases hk
  | cons p ps =>
    have hmf2 : (calculateEmotionSummary es).mostFrequentEmotion = (bestScan p ps).1 := by
      rw [hmf, hct]
    rcases bestScan_first_max p ps with ⟨l₁, l₂, hsplit, hbef, haft⟩
    have hrmem : bestScan p ps ∈ countTable ls := by
      rw [hct, hsplit]
      exact List.mem_append.mpr (Or.inr (List.mem_cons_self _ _))
    have hrkey : (bestScan p ps).1 ∈ ls :=
      (countTable_mem_keys ls (bestScan p ps).1).mp
        (List.mem_map.mpr ⟨bestScan p ps, hrmem, rfl⟩)
    have hrval : (bestScan p ps).2 = countIn ls (bestScan p ps).1 :=
      countTable_val ls (bestScan p ps) hrmem
    have hmax : ∀ l, countIn ls l ≤ countIn ls (bestScan p ps).1 := by
      intro l
      by_cases hl : 0 < countIn ls l
      · have hlmem : l ∈ ls := mem_of_countIn_pos hl
        rcases List.mem_map.mp ((countTable_mem_keys ls l).mpr hlmem) with ⟨q, hq, hq1⟩
        have hqval : q.2 = countIn ls q.1 := countTable_val ls q hq
        have hcl : countIn ls l = q.2 := by
          rw [hqval, hq1]
        rw [hcl, ← hrval]
        rw [hct, hsplit] at hq
        rcases List.mem_append.mp hq with hq' | hq'
        · exact le_of_lt (hbef q hq')
        · rcases List.mem_cons.mp hq' with hq'' | hq''
          · rw [hq'']
          · exact haft q hq''
      · have hz : countIn ls l = 0 := Nat.eq_zero_of_not_pos hl
        rw [hz]
        exact Nat.zero_le _
    have hrpos : 0 < countIn ls (bestScan p ps).1 := countIn_pos_of_mem hrkey
    have htie : ∀ l, countIn ls l = countIn ls (bestScan p ps).1 →
        firstIdx ls (bestScan p ps).1 ≤ firstIdx ls l := by
      intro l hcnt
      have hl : 0 < countIn ls l := by
        rw [hcnt]
        exact hrpos
      have hlmem : l ∈ ls := mem_of_countIn_pos hl
      rcases List.mem_map.mp ((countTable_mem_keys ls l).mpr hlmem) with ⟨q, hq, hq1⟩
      have hqval : q.2 = countIn ls q.1 := countTable_val ls q hq
      rw [hct, hsplit] at hq
      rcases List.mem_append.mp hq with hq' | hq'
      · exfalso
        have h1 := hbef q hq'
        rw [hqval, hq1, hcnt, ← hrval] at h1
        exact lt_irrefl _ h1
      · rcases List.mem_cons.mp hq' with hq'' | hq''
        · have : (bestScan p ps).1 = l := by
            rw [← hq1, hq'']
          rw [this]
        · have hsorted := countTable_keys_sorted ls
          rw [hct, hsplit] at hsorted
          simp only [List.map_append, List.map_cons] at hsorted
          rw [List.pairwise_append] at hsorted
          have h2 := hsorted.2.1
          rw [List.pairwise_cons] at h2
          have h3 := h2.1 q.1 (List.mem_map.mpr ⟨q, hq'', rfl⟩)
          rw [hq1] at h3
          exact le_of_lt h3
    rw [hmf2]
    exact ⟨hrkey, hmax, htie⟩

/-- A concrete record with a given label, for witnesses and examples. -/
def wRec (l : EmotionLabel) : EmotionData :=
  ⟨some l, 1/2, 0, 0, 0, .medium, ⟨1/2, 1/2, .normal, 1/2⟩⟩

theorem claim_C4_most_frequent_witness :
    ([wRec .happy, wRec .happy, wRec .nervous] ≠ ([] : List EmotionData)) ∧
    ((calculateEmotionSummary [wRec .happy, wRec .happy, wRec .nervous]).mostFrequentEmotion ∈
      [wRec .happy, wRec .happy, wRec .nervous].map (fun e => e.emotion) ∧
    (∀ l, countIn ([wRec .happy, wRec .happy, wRec .nervous].map (fun e => e.emotion)) l ≤
      countIn ([wRec .happy, wRec .happy, wRec .nervous].map (fun e => e.emotion))
        ((calculateEmotionSummary [wRec .happy, wRec .happy, wRec .nervous]).mostFrequentEmotion)) ∧
    (∀ l, countIn ([wRec .happy, wRec .happy, wRec .nervous].map (fun e => e.emotion)) l =
        countIn ([wRec .happy, wRec .happy, wRec .nervous].map (fun e => e.emotion))
          ((calculateEmotionSummary [wRec .happy, wRec .happy, wRec .nervous]).mostFrequentEmotion) →
      firstIdx ([wRec .happy, wRec .happy, wRec .nervous].map (fun e => e.emotion))
          ((calculateEmotionSummary [wRec .happy, wRec .happy, wRec .nervous]).mostFrequentEmotion) ≤
        firstIdx ([wRec .happy, wRec .happy, wRec .nervous].map (fun e => e.emotion)) l)) :=
  ⟨by decide, claim_C4_most_frequent [wRec .happy, wRec .happy, wRec .nervous] (by decide)⟩

/-! ## Claim C7: emotional trend -/

/-- Stated from the spec: stable below 3 records; otherwise split into halves
with the extra record going to the second half, compare the positive-label
ratios, and threshold the difference at one tenth. -/
def trendSpec (es : List EmotionData) : Trend :=
  if es.length < 3 then .stable
  else
    let secondMinusFirst :=
      halfPositive (es.drop (es.length / 2)) - halfPositive (es.take (es.length / 2))
    if 0.1 < secondMinusFirst then .improving
    else if secondMinusFirst < -0.1 then .declining
    else .stable

/-- A 5-record session: labels confident, nervous, confident, happy, nervous.
Its first half (2 records) has positive ratio 1/2, its second half
(3 records) has positive ratio 2/3. -/
def exampleSession : List EmotionData :=
  [wRec .confident, wRec .nervous, wRec .confident, wRec .happy, wRec .nervous]

/-- C7 counterexample: no 5-record session can have first-half positive ratio
2/3 and second-half ratio 4/5 as the claim's example asserts — the halves of
a 5-record list have sizes 2 and 3, so those ratios are unattainable. -/
theorem claim_C7_counterexample :
    ¬ ∃ es : List EmotionData, es.length = 5 ∧
      halfPositive (es.take (es.length / 2)) = 2/3 ∧
      halfPositive (es.drop (es.length / 2)) = 4/5 ∧
      calculateEmotionalTrend es = .improving := by
  rintro ⟨es, h5, hf, -, -⟩
  have hlen : (es.take (es.length / 2)).length = 2 := by
    rw [List.length_take, h5]
    decide
  rw [halfPositive, hlen] at hf
  have hk : ((es.take (es.length / 2)).filter
      (fun e => decide (e.emotion ∈ positiveEmotions))).length ≤ 2 := by
    calc ((es.take (es.length / 2)).filter
        (fun e => decide (e.emotion ∈ positiveEmotions))).length
        ≤ (es.take (es.length / 2)).length := List.length_filter_le _ _
      _ = 2 := hlen
  set k := ((es.take (es.length / 2)).filter
    (fun e => decide (e.emotion ∈ positiveEmotions))).length with hkdef
  interval_cases k <;> norm_num at hf

/-- C7 amended: the trend equals the spec rule for every record list (stable
below 3 records, halves split with the extra record in the second half,
thresholds at one tenth on the ratio difference), and a satisfiable 5-record
example with first-half ratio 1/2 and second-half ratio 2/3 — a difference of
1/6, above the threshold — yields improving. -/
theorem claim_C7_emotional_trend :
    (∀ es, calculateEmotionalTrend es = trendSpec es) ∧
    halfPositive (exampleSession.take (exampleSession.length / 2)) = 1/2 ∧
    halfPositive (exampleSession.drop (exampleSession.length / 2)) = 2/3 ∧
    calculateEmotionalTrend exampleSession = .improving := by
  refine ⟨?_, ?_, ?_, ?_⟩
  · intro es
    unfold calculateEmotionalTrend trendSpec
    rfl
  · simp +decide [exampleSession, halfPositive, wRec, positiveEmotions]
  · simp +decide [exampleSession, halfPositive, wRec, positiveEmotions]
  · simp +decide [calculateEmotionalTrend, exampleSession, halfPositive, wRec,
      positiveEmotions]
    norm_num
